import Mathlib

/-!
Shallow embedding of the `ai-native` repository core
(`whiteboard.py`, `lj_kernel.py`, `multi_agent.py` / `ai_native_os.py`).

Strings manipulated by the parsers are modelled as `List Char`
(`String.data`); Python `str.split(sep)`, `str.split(sep, 1)`,
`str.strip()`, `str.lstrip("\n")` and `str.replace(old, "")` are
translated character-for-character below.
-/

namespace AiNativeModel

/-- Python `pat.isPrefixOf`-based single split: `s.split(pat, 1)`.
Returns `some (before, after)` around the first occurrence of `pat`,
`none` when `pat` does not occur (Python raises `ValueError` on
unpacking in that case). -/
def splitFirst (pat : List Char) : List Char → Option (List Char × List Char)
  | [] => if pat.isEmpty then some ([], []) else none
  | c :: cs =>
    if pat.isPrefixOf (c :: cs) then some ([], (c :: cs).drop pat.length)
    else
      match splitFirst pat cs with
      | none => none
      | some (a, b) => some (c :: a, b)

/-- Fuelled iteration of `splitFirst`: Python `s.split(pat)` for a
non-empty `pat` (successive non-overlapping first occurrences). -/
def pySplitFuel (pat : List Char) : Nat → List Char → List (List Char)
  | 0, l => [l]
  | fuel + 1, l =>
    match splitFirst pat l with
    | none => [l]
    | some (a, b) => a :: pySplitFuel pat fuel b

/-- Python `s.split(pat)` for non-empty `pat`. -/
def pySplit (pat l : List Char) : List (List Char) :=
  pySplitFuel pat (l.length + 1) l

/-- Prefix of `l` before the first occurrence of `pat`; all of `l` when
`pat` does not occur.  Models
`content.split(pat, 1)[0] if pat in content else content`. -/
def takeUntil (pat l : List Char) : List Char :=
  match splitFirst pat l with
  | some (a, _) => a
  | none => l

/-- Python `str.strip()` (for the ASCII whitespace the repository
produces). -/
def pyStrip (l : List Char) : List Char :=
  ((l.dropWhile Char.isWhitespace).reverse.dropWhile Char.isWhitespace).reverse

/-- The `"=== file:"` marker of the file-change block protocol. -/
def fileMarker : List Char := ("=== file:").data

/-- The `"==="` separator ending the path header of a block. -/
def eqMarker : List Char := ("===").data

/-- The `"=== end ==="` end-of-block marker. -/
def endMarker : List Char := ("=== end ===").data

/-- Content post-processing of one block in `MasterAgent._apply_changes`:
truncate at the first `"=== end ==="` occurrence if any, then
`lstrip("\n")` (drop every leading newline). -/
def cookContent (rest : List Char) : List Char :=
  (takeUntil endMarker rest).dropWhile (fun c => c == ('\n'))

/-- One segment produced by splitting on `"=== file:"`: split once on
`"==="`; a segment with no `"==="` is silently skipped
(`except ValueError: continue`); otherwise the stripped header is the
path and the cooked remainder is the content. -/
def parseBlock (block : List Char) : Option (List Char × List Char) :=
  match splitFirst eqMarker block with
  | none => none
  | some (header, rest) => some (pyStrip header, cookContent rest)

/-- The (path, content) pairs parsed by `MasterAgent._apply_changes`
from the developer output: split on `"=== file:"`, drop the text before
the first marker (`blocks[1:]`), parse each segment leniently. -/
def parseBlocks (out : List Char) : List (List Char × List Char) :=
  ((pySplit fileMarker out).drop 1).filterMap parseBlock

lemma splitFirst_cons_of_ne (pat : List Char) (p : Char) (ps : List Char)
    (hpat : pat = p :: ps) (c : Char) (hne : (p == c) = false) (l : List Char) :
    splitFirst pat (c :: l) = (splitFirst pat l).map (fun q => (c :: q.1, q.2)) := by
  subst hpat
  have hpre : (p :: ps).isPrefixOf (c :: l) = false := by
    simp [List.isPrefixOf, hne]
  simp only [splitFirst, hpre, Bool.false_eq_true, if_false]
  cases h : splitFirst (p :: ps) l with
  | none => simp
  | some q => cases q with
    | mk a b => simp

lemma takeUntil_endMarker_newline (l : List Char) :
    takeUntil endMarker (('\n') :: l) = ('\n') :: takeUntil endMarker l := by
  have h := splitFirst_cons_of_ne endMarker ('=') (("== end ===").data) rfl ('\n')
    (by decide) l
  unfold takeUntil
  rw [h]
  cases splitFirst endMarker l with
  | none => simp
  | some q => cases q with
    | mk a b => simp

lemma cookContent_newline (l : List Char) :
    cookContent (('\n') :: l) = cookContent l := by
  simp [cookContent, takeUntil_endMarker_newline, List.dropWhile]

lemma splitFirst_eq_some (pat : List Char) :
    ∀ (l pre suf : List Char), splitFirst pat l = some (pre, suf) →
      l = pre ++ pat ++ suf ∧ ∀ p' s', l = p' ++ pat ++ s' → pre.length ≤ p'.length := by
  intro l
  induction l with
  | nil =>
    intro pre suf h
    by_cases hp : pat.isEmpty
    · have hpat : pat = [] := by simpa [List.isEmpty_iff] using hp
      simp only [splitFirst, hp, if_true, Option.some.injEq, Prod.mk.injEq] at h
      obtain ⟨h1, h2⟩ := h
      subst h1; subst h2
      exact ⟨by simp [hpat], fun p' s' _ => by simp⟩
    · simp [splitFirst, hp] at h
  | cons c cs ih =>
    intro pre suf h
    cases hpre : pat.isPrefixOf (c :: cs) with
    | true =>
      obtain ⟨t, ht⟩ : pat <+: (c :: cs) := List.isPrefixOf_iff_prefix.mp hpre
      simp only [splitFirst, hpre, if_true, Option.some.injEq, Prod.mk.injEq] at h
      obtain ⟨h1, h2⟩ := h
      subst h1
      have hdrop : (c :: cs).drop pat.length = t := by
        rw [← ht]; exact List.drop_left pat t
      rw [hdrop] at h2
      subst h2
      exact ⟨by simp [← ht], fun p' s' _ => by simp⟩
    | false =>
      simp only [splitFirst, hpre, Bool.false_eq_true, if_false] at h
      cases hsf : splitFirst pat cs with
      | none => rw [hsf] at h; simp at h
      | some q =>
        cases q with
        | mk a b =>
          rw [hsf] at h
          simp only [Option.some.injEq, Prod.mk.injEq] at h
          obtain ⟨h1, h2⟩ := h
          subst h1; subst h2
          obtain ⟨hdec, hmin⟩ := ih a b hsf
          constructor
          · simp [hdec]
          · intro p' s' heq
            cases p' with
            | nil =>
              exfalso
              have hcontra : pat.isPrefixOf (c :: cs) = true := by
                refine List.isPrefixOf_iff_prefix.mpr ⟨s', ?_⟩
                simpa using heq.symm
              rw [hcontra] at hpre
              exact Bool.noConfusion hpre
            | cons c' p'' =>
              simp only [List.cons_append, List.cons.injEq] at heq
              have := hmin p'' s' heq.2
              simp only [List.length_cons]
              omega

/-- C4: parsing the developer output
`"=== file: a/b.txt ===\nhello\n=== end ===\n=== file: c.txt ===\nworld"`
with `MasterAgent._apply_changes`'s block parser yields exactly the two
pairs `("a/b.txt", "hello\n")` and `("c.txt", "world")`, in this order. -/
theorem c4_parse_example :
    parseBlocks (("=== file: a/b.txt ===\nhello\n=== end ===\n=== file: c.txt ===\nworld").data) =
      [((("a/b.txt").data), (("hello\n").data)), ((("c.txt").data), (("world").data))] := by
  decide

/-- C5 counterexample: on the block `"=== file: a.txt ===\n\nhello"` the
parser returns content `"hello"`, not `"\nhello"`: it strips every
leading newline after the path separator, not only the first one, so a
block whose content begins with blank lines does NOT keep them. -/
theorem c5_counterexample :
    parseBlocks (("=== file: a.txt ===\n\nhello").data) =
      [((("a.txt").data), (("hello").data))] ∧
    (("hello").data) ≠ (("\nhello").data) := by
  constructor
  · decide
  · decide

/-- C5 (amended): the content post-processing of
`MasterAgent._apply_changes` (`lstrip("\n")` after the optional
`"=== end ==="` truncation) removes EVERY leading newline of a block's
content, not just the single newline after the path separator: prefixing
any number of newlines to a block remainder leaves the parsed content
unchanged. -/
theorem c5_strip_all_newlines :
    ∀ (k : Nat) (s : List Char),
      cookContent (List.replicate k ('\n') ++ s) = cookContent s := by
  intro k
  induction k with
  | zero => intro s; simp
  | succ n ih =>
    intro s
    rw [List.replicate_succ, List.cons_append, cookContent_newline]
    exact ih s

/-- C9: a block's content is truncated at the FIRST occurrence of the
literal `"=== end ==="` anywhere in the remainder: when
`splitFirst endMarker r = some (pre, suf)`, the remainder decomposes as
`pre ++ "=== end ===" ++ suf`, this occurrence is the earliest one, and
the parsed content is `pre` (with its leading newlines dropped) — the
whole tail from the marker on, `suf` included, is discarded. -/
theorem c9_end_truncation (r pre suf : List Char)
    (h : splitFirst endMarker r = some (pre, suf)) :
    r = pre ++ endMarker ++ suf ∧
    cookContent r = pre.dropWhile (fun c => c == ('\n')) ∧
    ∀ p' s', r = p' ++ endMarker ++ s' → pre.length ≤ p'.length := by
  obtain ⟨hdec, hmin⟩ := splitFirst_eq_some endMarker r pre suf h
  refine ⟨hdec, ?_, hmin⟩
  simp [cookContent, takeUntil, h]

/-- C9 witness: the block remainder `"x\n=== end ===junk"` is cooked to
`"x\n"` (the text from the marker on is discarded even though more text
follows it). -/
theorem c9_end_truncation_witness :
    cookContent (("x\n=== end ===junk").data) =
      List.dropWhile (fun c => c == ('\n')) (("x\n").data) :=
  (c9_end_truncation (("x\n=== end ===junk").data) (("x\n").data) (("junk").data)
    (by decide)).2.1

/-- The per-character step of `FileSystemWhiteboard._slug`: keep
alphanumerics, `-` and `_`, replace every other character by `_`
(Python `c if c.isalnum() or c in "-_" else "_"`; `isalnum` restricted
to the ASCII alphanumerics the repository uses). -/
def slugChar (c : Char) : Char :=
  if c.isAlphanum || c == ('-') || c == ('_') then c else ('_')

/-- `FileSystemWhiteboard._slug`: sanitize every character, then
truncate to 64 characters (`[:64]`). -/
def slug (s : String) : String :=
  ⟨(s.data.map slugChar).take 64⟩

lemma slugChar_idem (c : Char) : slugChar (slugChar c) = slugChar c := by
  unfold slugChar
  by_cases h : (c.isAlphanum || c == ('-') || c == ('_')) = true
  · simp [h]
  · simp [h]

lemma slugChar_kept (c : Char) :
    ((slugChar c).isAlphanum || (slugChar c) == ('-') || (slugChar c) == ('_')) = true := by
  unfold slugChar
  by_cases h : (c.isAlphanum || c == ('-') || c == ('_')) = true
  · simp [h]
  · simp [h]

/-- C8: the project slug of `FileSystemWhiteboard._slug` is idempotent,
every character of a slug is an alphanumeric, `-` or `_` (hence neither
the path separator `/` nor the null character occurs in a slug), and a
slug is at most 64 characters long. -/
theorem c8_slug (s : String) :
    slug (slug s) = slug s ∧
    (slug s).length ≤ 64 ∧
    ∀ c ∈ (slug s).data,
      (c.isAlphanum || c == ('-') || c == ('_')) = true ∧
      c ≠ ('/') ∧ c ≠ (Char.ofNat 0) := by
  refine ⟨?_, ?_, ?_⟩
  · show (⟨((((s.data.map slugChar).take 64) : List Char).map slugChar).take 64⟩ : String) =
      ⟨(s.data.map slugChar).take 64⟩
    congr 1
    have hfun : slugChar ∘ slugChar = slugChar := funext (fun c => slugChar_idem c)
    rw [List.map_take, List.take_take, min_self, List.map_map, hfun]
  · show ((s.data.map slugChar).take 64).length ≤ 64
    simp [List.length_take]
  · intro c hc
    have hmem : c ∈ s.data.map slugChar := List.mem_of_mem_take hc
    obtain ⟨a, _, ha⟩ := List.mem_map.mp hmem
    have hkept : (c.isAlphanum || c == ('-') || c == ('_')) = true := by
      rw [← ha]; exact slugChar_kept a
    refine ⟨hkept, ?_, ?_⟩
    · intro hcontra
      rw [hcontra] at hkept
      exact Bool.noConfusion hkept
    · intro hcontra
      rw [hcontra] at hkept
      exact Bool.noConfusion hkept

/-- C8 witness: the slug of `"a/b!"` is `"a_b_"`; it equals its own
slug, and its first character `a` is alphanumeric. -/
theorem c8_slug_witness :
    slug (slug ("a/b!")) = slug ("a/b!") ∧
    ((('a') : Char).isAlphanum || (('a') : Char) == ('-') || (('a') : Char) == ('_')) = true :=
  ⟨(c8_slug ("a/b!")).1, ((c8_slug ("a/b!")).2.2 ('a') (by decide)).1⟩

/-- Fields of a whiteboard snapshot, mirroring the `Snapshot` dataclass
of `whiteboard.py` (same field names). -/
structure Snapshot where
  id : String
  phase : String
  agent_name : String
  project : String
  created_at : String
  text : String
  deriving DecidableEq


/-- Lexicographic comparison of character lists — the `<=` Python uses
when comparing strings (and sort keys). -/
def charsLe : List Char → List Char → Bool
  | [], _ => true
  | _ :: _, [] => false
  | a :: as, b :: bs =>
    if a.toNat < b.toNat then true
    else if b.toNat < a.toNat then false
    else charsLe as bs

/-- Python string `<=` (lexicographic by code point). -/
def strLe (a b : String) : Bool :=
  charsLe a.data b.data

lemma charsLe_refl : ∀ l : List Char, charsLe l l = true := by
  intro l
  induction l with
  | nil => rfl
  | cons a as ih => simp [charsLe, ih]

lemma charsLe_total : ∀ a b : List Char, charsLe a b = false → charsLe b a = true := by
  intro a
  induction a with
  | nil => intro b h; simp [charsLe] at h
  | cons x xs ih =>
    intro b h
    cases b with
    | nil => rfl
    | cons y ys =>
      simp only [charsLe] at h ⊢
      by_cases hxy : x.toNat < y.toNat
      · rw [if_pos hxy] at h; exact Bool.noConfusion h
      · rw [if_neg hxy] at h
        by_cases hyx : y.toNat < x.toNat
        · rw [if_pos hyx] at h
          rw [if_pos hyx]
        · rw [if_neg hyx] at h
          rw [if_neg hyx, if_neg hxy]
          exact ih ys h

lemma charsLe_trans : ∀ a b c : List Char,
    charsLe a b = true → charsLe b c = true → charsLe a c = true := by
  intro a
  induction a with
  | nil => intro b c _ _; rfl
  | cons x xs ih =>
    intro b c hab hbc
    cases b with
    | nil => simp [charsLe] at hab
    | cons y ys =>
      cases c with
      | nil => simp [charsLe] at hbc
      | cons z zs =>
        simp only [charsLe] at hab hbc ⊢
        by_cases hxy : x.toNat < y.toNat
        · by_cases hyz : y.toNat < z.toNat
          · rw [if_pos (by omega : x.toNat < z.toNat)]
          · rw [if_neg hyz] at hbc
            by_cases hzy : z.toNat < y.toNat
            · rw [if_pos hzy] at hbc; exact Bool.noConfusion hbc
            · rw [if_pos (by omega : x.toNat < z.toNat)]
        · rw [if_neg hxy] at hab
          by_cases hyx : y.toNat < x.toNat
          · rw [if_pos hyx] at hab; exact Bool.noConfusion hab
          · rw [if_neg hyx] at hab
            by_cases hyz : y.toNat < z.toNat
            · rw [if_pos (by omega : x.toNat < z.toNat)]
            · rw [if_neg hyz] at hbc
              by_cases hzy : z.toNat < y.toNat
              · rw [if_pos hzy] at hbc; exact Bool.noConfusion hbc
              · rw [if_neg hzy] at hbc
                rw [if_neg (by omega : ¬ x.toNat < z.toNat),
                   if_neg (by omega : ¬ z.toNat < x.toNat)]
                exact ih ys zs hab hbc

lemma strLe_trans {a b c : String} (hab : strLe a b = true) (hbc : strLe b c = true) :
    strLe a c = true :=
  charsLe_trans a.data b.data c.data hab hbc

lemma strLe_total {a b : String} (h : strLe a b = false) : strLe b a = true :=
  charsLe_total a.data b.data h

/-- Selection of `candidates.sort(key=...); candidates[-1]` for a
non-empty candidate list.  Python's Timsort is stable, so the last
element after sorting by key is the last element whose key is maximal;
`pickGo` carries the current best and replaces it whenever a later
element's key is at least as large. -/
def pickGo {α : Type} (key : α → String) (b : α) : List α → α
  | [] => b
  | x :: xs => pickGo key (if strLe (key b) (key x) then x else b) xs

/-- `candidates.sort(key=...); return candidates[-1]` guarded by
`if not candidates: return None`. -/
def pickLatest {α : Type} (key : α → String) : List α → Option α
  | [] => none
  | x :: xs => some (pickGo key x xs)

lemma pickGo_spec {α : Type} (key : α → String) :
    ∀ (l : List α) (b : α),
      (pickGo key b l = b ∨ pickGo key b l ∈ l) ∧
      strLe (key b) (key (pickGo key b l)) = true ∧
      ∀ x ∈ l, strLe (key x) (key (pickGo key b l)) = true := by
  intro l
  induction l with
  | nil => intro b; exact ⟨Or.inl rfl, charsLe_refl _, by simp⟩
  | cons x xs ih =>
    intro b
    by_cases hle : strLe (key b) (key x) = true
    · have hstep : pickGo key b (x :: xs) = pickGo key x xs := by
        simp only [pickGo, hle, if_true]
      obtain ⟨hmem, hba, hall⟩ := ih x
      rw [hstep]
      refine ⟨?_, strLe_trans hle hba, ?_⟩
      · cases hmem with
        | inl h => exact Or.inr (by rw [h]; exact List.mem_cons_self x xs)
        | inr h => exact Or.inr (List.mem_cons_of_mem x h)
      · intro y hy
        cases List.mem_cons.mp hy with
        | inl h => rw [h]; exact hba
        | inr h => exact hall y h
    · have hlef : strLe (key b) (key x) = false := by
        cases hb : strLe (key b) (key x) with
        | false => rfl
        | true => exact absurd hb hle
      have hstep : pickGo key b (x :: xs) = pickGo key b xs := by
        simp only [pickGo, hlef, Bool.false_eq_true, if_false]
      obtain ⟨hmem, hbb, hall⟩ := ih b
      rw [hstep]
      refine ⟨?_, hbb, ?_⟩
      · cases hmem with
        | inl h => exact Or.inl h
        | inr h => exact Or.inr (List.mem_cons_of_mem x h)
      · intro y hy
        cases List.mem_cons.mp hy with
        | inl h => rw [h]; exact strLe_trans (strLe_total hlef) hbb
        | inr h => exact hall y h

lemma pickLatest_char {α : Type} (key : α → String) (l : List α) :
    (pickLatest key l = none ↔ l = []) ∧
    ∀ y, pickLatest key l = some y → y ∈ l ∧ ∀ x ∈ l, strLe (key x) (key y) = true := by
  cases l with
  | nil => simp [pickLatest]
  | cons x xs =>
    refine ⟨by simp [pickLatest], ?_⟩
    intro y hy
    simp only [pickLatest, Option.some.injEq] at hy
    subst hy
    obtain ⟨hmem, hbx, hall⟩ := pickGo_spec key xs x
    refine ⟨?_, ?_⟩
    · cases hmem with
      | inl h => rw [h]; exact List.mem_cons_self x xs
      | inr h => exact List.mem_cons_of_mem x h
    · intro z hz
      cases List.mem_cons.mp hz with
      | inl h => rw [h]; exact hbx
      | inr h => exact hall z h

/-- Does a snapshot match the optional filters of `latest`?  A missing
filter matches every snapshot. -/
def matchesFilters (phase? project? : Option String) (s : Snapshot) : Bool :=
  (match phase? with | some ph => s.phase == ph | none => true) &&
  (match project? with | some pr => s.project == pr | none => true)

namespace InMemoryWhiteboard

/-- Insert-or-overwrite by id, keeping the original position on
overwrite — the `self._snapshots[sid] = snap` of a Python dict. -/
def upsertById : List Snapshot → Snapshot → List Snapshot
  | [], snap => [snap]
  | s :: rest, snap => if s.id = snap.id then snap :: rest else s :: upsertById rest snap

/-- `InMemoryWhiteboard.write_snapshot`, with its two environmental
inputs (the sha256-derived 16-hex id and the `utcnow()` timestamp)
passed as arguments. -/
def write_snapshot (snaps : List Snapshot)
    (sid created_at phase agent_name project text : String) : List Snapshot × Snapshot :=
  let snap : Snapshot := ⟨sid, phase, agent_name, project, created_at, text⟩
  (upsertById snaps snap, snap)

/-- `InMemoryWhiteboard.get_snapshot`: dict lookup by id; `none` models
the `KeyError` (NotFound) raised for an absent id. -/
def get_snapshot (snaps : List Snapshot) (snapshot_id : String) : Option Snapshot :=
  snaps.find? (fun s => s.id == snapshot_id)

/-- The candidate list of `InMemoryWhiteboard.latest`: the stored
snapshots filtered by the optional phase, then by the optional
project. -/
def candidates (snaps : List Snapshot) (phase? project? : Option String) : List Snapshot :=
  let c1 := match phase? with
    | some ph => snaps.filter (fun t => t.phase == ph)
    | none => snaps
  match project? with
  | some pr => c1.filter (fun t => t.project == pr)
  | none => c1

/-- `InMemoryWhiteboard.latest`: filter the stored snapshots by the
optional phase and project, sort the matches by `created_at` and return
the last one, or `None` when nothing matches. -/
def latest (snaps : List Snapshot) (phase? project? : Option String) : Option Snapshot :=
  pickLatest (fun t => t.created_at) (candidates snaps phase? project?)

lemma mem_candidates (snaps : List Snapshot) (phase? project? : Option String)
    (s : Snapshot) :
    s ∈ candidates snaps phase? project? ↔
      s ∈ snaps ∧ matchesFilters phase? project? s = true := by
  cases phase? with
  | none =>
    cases project? with
    | none => simp [candidates, matchesFilters]
    | some pr => simp [candidates, matchesFilters, List.mem_filter]
  | some ph =>
    cases project? with
    | none => simp [candidates, matchesFilters, List.mem_filter]
    | some pr =>
      simp [candidates, matchesFilters, List.mem_filter, and_assoc]
      intro _
      exact ⟨fun h => ⟨h.2, h.1⟩, fun h => ⟨h.2, h.1⟩⟩

end InMemoryWhiteboard

/-- One file of the durable store, at
`root/<project_dir>/<phase_dir>/<name>` — exactly the three-level layout
`FileSystemWhiteboard.write_snapshot` produces (`write_snapshot` always
creates the file inside `root/_slug(project)/phase/`, so every `*.txt`
of the store sits at depth 3; directories exist exactly when a file was
written beneath them). -/
structure FSFile where
  project_dir : String
  phase_dir : String
  name : String
  content : String
  deriving DecidableEq

/-- `name.split("_")`, as Python `str.split`. -/
def nameParts (name : String) : List String :=
  (pySplit (("_").data) name.data).map (fun l => (⟨l⟩ : String))

/-- The sort key of `FileSystemWhiteboard.latest`:
`p.name.split("_")[0]`, the timestamp prefix of the file name. -/
def fsKey (f : FSFile) : String :=
  (nameParts f.name).headD ("")

/-- Python `str.replace(old, "")`: drop every occurrence of `old`. -/
def removeAll (pat l : List Char) : List Char :=
  (pySplit pat l).foldr (fun a acc => a ++ acc) []

/-- The snapshot `FileSystemWhiteboard.latest` reconstructs from the
winning file: all metadata re-parsed from the file name and the two
parent directory names
(`name.split("_")[-1].replace(".txt", "")`, `parts[0]`, `parts[1]`,
`parent.name`, `parent.parent.name`). -/
def latestSnap (f : FSFile) : Snapshot :=
  { id := ⟨removeAll ((".txt").data) ((nameParts f.name).getLastD ("")).data⟩
  , phase := f.phase_dir
  , agent_name := (nameParts f.name).getD 1 ("")
  , project := f.project_dir
  , created_at := fsKey f
  , text := f.content }

/-- Does a stored file match the optional filters of the filesystem
`latest`?  The project filter selects the `_slug(project)` directory,
the phase filter the phase directory; a missing filter matches every
file. -/
def fsMatches (phase? project? : Option String) (f : FSFile) : Bool :=
  (match phase? with | some ph => f.phase_dir == ph | none => true) &&
  (match project? with | some pr => f.project_dir == slug pr | none => true)

namespace FileSystemWhiteboard

/-- `FileSystemWhiteboard.write_snapshot`, with its environmental inputs
(the sha256-derived id and the `utcnow()` timestamp) passed as
arguments: the file is created under `root/_slug(project)/phase/` with
name `f"{created_at}_{agent_name}_{sid}.txt"` and the verbatim text as
content. -/
def write_snapshot (fs : List FSFile)
    (sid created_at phase agent_name project text : String) : List FSFile × Snapshot :=
  let filename := created_at ++ ("_") ++ agent_name ++ ("_") ++ sid ++ (".txt")
  (fs ++ [⟨slug project, phase, filename, text⟩],
   ⟨sid, phase, agent_name, project, created_at, text⟩)

/-- `FileSystemWhiteboard.get_snapshot`: scan every stored `*.txt` file
and return the first whose NAME ends with `f"{snapshot_id}.txt"`,
rebuilding the metadata from the name and parent directory names; `none`
models the `KeyError` (NotFound) raised when no name matches. -/
def get_snapshot (fs : List FSFile) (snapshot_id : String) : Option Snapshot :=
  match fs.find? (fun f => (snapshot_id ++ (".txt")).data.isSuffixOf f.name.data) with
  | some f => some
      { id := snapshot_id
      , phase := f.phase_dir
      , agent_name := (nameParts f.name).getD 1 ("")
      , project := f.project_dir
      , created_at := (nameParts f.name).headD ("")
      , text := f.content }
  | none => none

/-- `FileSystemWhiteboard.latest`.  With a project filter the scan base
is `root/_slug(project)` (absent — i.e. no file below it — means
`None`); with a phase filter on top, the scan is the non-recursive glob
of `base/phase`.  WITHOUT a project filter the base is the root, and a
phase filter makes the code glob `root/<phase>` — a directory that, in
the layout `write_snapshot` produces, is a PROJECT directory holding
only phase subdirectories and never `*.txt` files directly, so that
branch always yields `None`. -/
def latest (fs : List FSFile) (phase? project? : Option String) : Option Snapshot :=
  match project? with
  | some pr =>
    let slp := slug pr
    if fs.any (fun f => f.project_dir == slp) then
      match phase? with
      | some ph =>
        if fs.any (fun f => f.project_dir == slp && f.phase_dir == ph) then
          Option.map latestSnap
            (pickLatest fsKey (fs.filter (fun f => f.project_dir == slp && f.phase_dir == ph)))
        else none
      | none =>
        Option.map latestSnap (pickLatest fsKey (fs.filter (fun f => f.project_dir == slp)))
    else none
  | none =>
    match phase? with
    | some _ => none
    | none => Option.map latestSnap (pickLatest fsKey fs)

end FileSystemWhiteboard

lemma fsPick_char (p : FSFile → Bool) (fs : List FSFile) :
    (Option.map latestSnap (pickLatest fsKey (fs.filter p)) = none ↔
      ∀ f ∈ fs, p f = false) ∧
    ∀ s, Option.map latestSnap (pickLatest fsKey (fs.filter p)) = some s →
      ∃ f ∈ fs, p f = true ∧ s = latestSnap f ∧
        ∀ f' ∈ fs, p f' = true → strLe (fsKey f') (fsKey f) = true := by
  obtain ⟨hnone, hsome⟩ := pickLatest_char fsKey (fs.filter p)
  constructor
  · rw [Option.map_eq_none', hnone, List.filter_eq_nil_iff]
    simp only [Bool.not_eq_true]
  · intro s hs
    obtain ⟨y, hy, hmap⟩ := Option.map_eq_some'.mp hs
    obtain ⟨hmem, hmax⟩ := hsome y hy
    rw [List.mem_filter] at hmem
    exact ⟨y, hmem.1, hmem.2, hmap.symm,
      fun f' hf' hpf' => hmax f' (List.mem_filter.mpr ⟨hf', hpf'⟩)⟩

/-- C1 counterexample: the filesystem store, queried with ONLY a phase
filter, returns the `None` sentinel even though a stored snapshot with
exactly that phase exists — `latest(phase="north_star")` globs
`root/north_star/*.txt`, but snapshot files live two levels below the
root, so the phase-only branch can never see them.  This falsifies the
claim that `latest` returns the none sentinel exactly when no stored
snapshot matches the supplied filters. -/
theorem c1_counterexample :
    FileSystemWhiteboard.latest
        [⟨("proj"), ("north_star"), ("2024-01-01T00:00:00_alice_abcd1234.txt"), ("hi")⟩]
        (some ("north_star")) none = none ∧
    (latestSnap ⟨("proj"), ("north_star"), ("2024-01-01T00:00:00_alice_abcd1234.txt"), ("hi")⟩).phase
      = ("north_star") := by
  exact ⟨rfl, rfl⟩

/-- C1 (amended): `latest` returns a stored snapshot whose `created_at`
is lexicographically greatest among the matching ones, and the `None`
sentinel exactly when nothing matches, for (a) the in-memory store under
every filter combination, and (b) the filesystem store whenever a
project filter is supplied (matching via its slug directory) or no
filter at all is supplied.  When ONLY a phase filter is supplied, the
filesystem store scans `root/<phase>` — a project-level directory that
never directly contains snapshot files — and therefore ALWAYS returns
the `None` sentinel, even when matching snapshots are stored. -/
theorem c1_latest_filters :
    (∀ (snaps : List Snapshot) (phase? project? : Option String),
      (InMemoryWhiteboard.latest snaps phase? project? = none ↔
        ∀ s ∈ snaps, matchesFilters phase? project? s = false) ∧
      (∀ s, InMemoryWhiteboard.latest snaps phase? project? = some s →
        s ∈ snaps ∧ matchesFilters phase? project? s = true ∧
        ∀ s' ∈ snaps, matchesFilters phase? project? s' = true →
          strLe s'.created_at s.created_at = true)) ∧
    (∀ (fs : List FSFile) (phase? : Option String) (pr : String),
      (FileSystemWhiteboard.latest fs phase? (some pr) = none ↔
        ∀ f ∈ fs, fsMatches phase? (some pr) f = false) ∧
      (∀ s, FileSystemWhiteboard.latest fs phase? (some pr) = some s →
        ∃ f ∈ fs, fsMatches phase? (some pr) f = true ∧ s = latestSnap f ∧
          s.created_at = fsKey f ∧
          ∀ f' ∈ fs, fsMatches phase? (some pr) f' = true →
            strLe (fsKey f') (fsKey f) = true)) ∧
    (∀ (fs : List FSFile),
      (FileSystemWhiteboard.latest fs none none = none ↔ fs = []) ∧
      (∀ s, FileSystemWhiteboard.latest fs none none = some s →
        ∃ f ∈ fs, s = latestSnap f ∧
          ∀ f' ∈ fs, strLe (fsKey f') (fsKey f) = true)) ∧
    (∀ (fs : List FSFile) (ph : String),
      FileSystemWhiteboard.latest fs (some ph) none = none) := by
  refine ⟨?_, ?_, ?_, ?_⟩
  · intro snaps phase? project?
    obtain ⟨hnone, hsome⟩ := pickLatest_char (fun t : Snapshot => t.created_at)
      (InMemoryWhiteboard.candidates snaps phase? project?)
    constructor
    · rw [InMemoryWhiteboard.latest, hnone, List.eq_nil_iff_forall_not_mem]
      constructor
      · intro h s hs
        cases hm : matchesFilters phase? project? s with
        | false => rfl
        | true =>
          exact absurd ((InMemoryWhiteboard.mem_candidates snaps phase? project? s).mpr
            ⟨hs, hm⟩) (h s)
      · intro h s hs
        obtain ⟨hmem1, hmem2⟩ :=
          (InMemoryWhiteboard.mem_candidates snaps phase? project? s).mp hs
        rw [h s hmem1] at hmem2
        exact Bool.noConfusion hmem2
    · intro s hs
      rw [InMemoryWhiteboard.latest] at hs
      obtain ⟨hin, hmax⟩ := hsome s hs
      obtain ⟨hin1, hin2⟩ := (InMemoryWhiteboard.mem_candidates snaps phase? project? s).mp hin
      refine ⟨hin1, hin2, ?_⟩
      intro s' hs' hm'
      exact hmax s' ((InMemoryWhiteboard.mem_candidates snaps phase? project? s').mpr ⟨hs', hm'⟩)
  · intro fs phase? pr
    cases phase? with
    | none =>
      have hmeq : ∀ f : FSFile,
          fsMatches none (some pr) f = (f.project_dir == slug pr) := by
        intro f; simp [fsMatches]
      by_cases hany : fs.any (fun f => f.project_dir == slug pr) = true
      · have hlat : FileSystemWhiteboard.latest fs none (some pr) =
            Option.map latestSnap
              (pickLatest fsKey (fs.filter (fun f => f.project_dir == slug pr))) := by
          simp only [FileSystemWhiteboard.latest]
          rw [if_pos hany]
        obtain ⟨hnone, hsome⟩ := fsPick_char (fun f => f.project_dir == slug pr) fs
        constructor
        · rw [hlat, hnone]
          constructor
          · intro h f hf; rw [hmeq f]; exact h f hf
          · intro h f hf; rw [← hmeq f]; exact h f hf
        · intro s hs
          rw [hlat] at hs
          obtain ⟨f, hf, hpf, hsf, hmax⟩ := hsome s hs
          refine ⟨f, hf, by rw [hmeq f]; exact hpf, hsf, by rw [hsf]; rfl, ?_⟩
          intro f' hf' hm'
          rw [hmeq f'] at hm'
          exact hmax f' hf' hm'
      · have hanyf : fs.any (fun f => f.project_dir == slug pr) = false := by
          cases hb : fs.any (fun f => f.project_dir == slug pr) with
          | false => rfl
          | true => exact absurd hb hany
        have hall : ∀ f ∈ fs, (f.project_dir == slug pr) = false := by
          intro f hf
          have := List.any_eq_false.mp hanyf f hf
          simpa using this
        have hlat : FileSystemWhiteboard.latest fs none (some pr) = none := by
          simp only [FileSystemWhiteboard.latest]
          rw [if_neg (by rw [hanyf]; exact Bool.noConfusion)]
        constructor
        · rw [hlat]
          simp only [true_iff]
          intro f hf
          rw [hmeq f]
          exact hall f hf
        · intro s hs; rw [hlat] at hs; exact Option.noConfusion hs
    | some ph =>
      have hmeq : ∀ f : FSFile,
          fsMatches (some ph) (some pr) f =
            (f.project_dir == slug pr && f.phase_dir == ph) := by
        intro f
        simp only [fsMatches]
        rw [Bool.and_comm]
      by_cases hany2 : fs.any (fun f => f.project_dir == slug pr && f.phase_dir == ph) = true
      · have hany : fs.any (fun f => f.project_dir == slug pr) = true := by
          obtain ⟨f, hf, hpf⟩ := List.any_eq_true.mp hany2
          exact List.any_eq_true.mpr ⟨f, hf, Bool.and_elim_left hpf⟩
        have hlat : FileSystemWhiteboard.latest fs (some ph) (some pr) =
            Option.map latestSnap
              (pickLatest fsKey
                (fs.filter (fun f => f.project_dir == slug pr && f.phase_dir == ph))) := by
          simp only [FileSystemWhiteboard.latest]
          rw [if_pos hany, if_pos hany2]
        obtain ⟨hnone, hsome⟩ :=
          fsPick_char (fun f => f.project_dir == slug pr && f.phase_dir == ph) fs
        constructor
        · rw [hlat, hnone]
          constructor
          · intro h f hf; rw [hmeq f]; exact h f hf
          · intro h f hf; rw [← hmeq f]; exact h f hf
        · intro s hs
          rw [hlat] at hs
          obtain ⟨f, hf, hpf, hsf, hmax⟩ := hsome s hs
          refine ⟨f, hf, by rw [hmeq f]; exact hpf, hsf, by rw [hsf]; rfl, ?_⟩
          intro f' hf' hm'
          rw [hmeq f'] at hm'
          exact hmax f' hf' hm'
      · have hany2f : fs.any (fun f => f.project_dir == slug pr && f.phase_dir == ph) = false := by
          cases hb : fs.any (fun f => f.project_dir == slug pr && f.phase_dir == ph) with
          | false => rfl
          | true => exact absurd hb hany2
        have hall : ∀ f ∈ fs,
            (f.project_dir == slug pr && f.phase_dir == ph) = false := by
          intro f hf
          have := List.any_eq_false.mp hany2f f hf
          simpa using this
        have hlat : FileSystemWhiteboard.latest fs (some ph) (some pr) = none := by
          simp only [FileSystemWhiteboard.latest]
          by_cases hany : fs.any (fun f => f.project_dir == slug pr) = true
          · rw [if_pos hany, if_neg (by rw [hany2f]; exact Bool.noConfusion)]
          · rw [if_neg hany]
        constructor
        · rw [hlat]
          simp only [true_iff]
          intro f hf
          rw [hmeq f]
          exact hall f hf
        · intro s hs; rw [hlat] at hs; exact Option.noConfusion hs
  · intro fs
    obtain ⟨hnone, hsome⟩ := pickLatest_char fsKey fs
    have hlat : FileSystemWhiteboard.latest fs none none =
        Option.map latestSnap (pickLatest fsKey fs) := rfl
    constructor
    · rw [hlat, Option.map_eq_none', hnone]
    · intro s hs
      rw [hlat] at hs
      obtain ⟨y, hy, hmap⟩ := Option.map_eq_some'.mp hs
      obtain ⟨hmem, hmax⟩ := hsome y hy
      exact ⟨y, hmem, hmap.symm, hmax⟩
  · intro fs ph
    rfl

/-- C1 witness: on a concrete two-snapshot in-memory store, `latest`
with the phase filter `north_star` returns the second snapshot, which is
stored and matches the filter. -/
theorem c1_latest_filters_witness :
    (⟨("idB"), ("north_star"), ("alice"), ("proj"), ("2024-01-02T00:00:00"), ("b")⟩ : Snapshot) ∈
      [(⟨("idA"), ("north_star"), ("alice"), ("proj"), ("2024-01-01T00:00:00"), ("a")⟩ : Snapshot),
       ⟨("idB"), ("north_star"), ("alice"), ("proj"), ("2024-01-02T00:00:00"), ("b")⟩] ∧
    matchesFilters (some ("north_star")) none
      ⟨("idB"), ("north_star"), ("alice"), ("proj"), ("2024-01-02T00:00:00"), ("b")⟩ = true := by
  have h := (c1_latest_filters.1
    [⟨("idA"), ("north_star"), ("alice"), ("proj"), ("2024-01-01T00:00:00"), ("a")⟩,
     ⟨("idB"), ("north_star"), ("alice"), ("proj"), ("2024-01-02T00:00:00"), ("b")⟩]
    (some ("north_star")) none).2
    ⟨("idB"), ("north_star"), ("alice"), ("proj"), ("2024-01-02T00:00:00"), ("b")⟩
    (by decide)
  exact ⟨h.1, h.2.1⟩

lemma map_fix {f : Char → Char} :
    ∀ (l : List Char), (∀ x ∈ l, f x = x) → l.map f = l := by
  intro l h
  induction l with
  | nil => rfl
  | cons a as ih =>
    simp only [List.map_cons, h a (List.mem_cons_self a as)]
    rw [ih (fun x hx => h x (List.mem_cons_of_mem a hx))]

lemma slug_eq_self (s : String)
    (hall : ∀ c ∈ s.data, (c.isAlphanum || c == ('-') || c == ('_')) = true)
    (hlen : s.length ≤ 64) : slug s = s := by
  have hmap : s.data.map slugChar = s.data :=
    map_fix s.data (fun c hc => by unfold slugChar; rw [if_pos (hall c hc)])
  unfold slug
  rw [hmap, List.take_of_length_le (by exact hlen : s.data.length ≤ 64)]

/-- C2 counterexample: writing a snapshot for project `"a/b"` (a project
name containing the path separator, outside alphanumerics, `-` and `_`)
and reading its id back returns a snapshot whose `project` field is the
SLUG `"a_b"`, not the written project `"a/b"` — the parent directory
name from which the read reconstructs the project is the slugged,
sanitized name. -/
theorem c2_counterexample :
    FileSystemWhiteboard.get_snapshot
        (FileSystemWhiteboard.write_snapshot [] ("abcd1234") ("2024-01-01T00:00:00")
          ("p") ("al") ("a/b") ("t")).1
        ("abcd1234") =
      some ⟨("abcd1234"), ("p"), ("al"), ("a_b"), ("2024-01-01T00:00:00"), ("t")⟩ ∧
    (("a_b") : String) ≠ ("a/b") := by
  constructor
  · decide
  · decide

/-- C2 (amended): writing a snapshot on the filesystem store and reading
its id back (when no previously stored file name already ends in
`sid.txt`) returns a snapshot whose `phase` equals the written phase and
whose `project` equals the SLUG of the written project, both
reconstructed purely from the parent directory names; the reconstructed
project equals the written project exactly for project strings that the
slug leaves unchanged — every character alphanumeric, `-` or `_`, and at
most 64 characters. -/
theorem c2_roundtrip (fs : List FSFile)
    (sid created_at phase agent_name project text : String)
    (hfresh : ∀ f ∈ fs, ((sid ++ (".txt")).data.isSuffixOf f.name.data) = false) :
    (FileSystemWhiteboard.get_snapshot
        (FileSystemWhiteboard.write_snapshot fs sid created_at phase agent_name project text).1
        sid).map Snapshot.phase = some phase ∧
    (FileSystemWhiteboard.get_snapshot
        (FileSystemWhiteboard.write_snapshot fs sid created_at phase agent_name project text).1
        sid).map Snapshot.project = some (slug project) ∧
    (FileSystemWhiteboard.get_snapshot
        (FileSystemWhiteboard.write_snapshot fs sid created_at phase agent_name project text).1
        sid).map Snapshot.text = some text ∧
    (FileSystemWhiteboard.get_snapshot
        (FileSystemWhiteboard.write_snapshot fs sid created_at phase agent_name project text).1
        sid).map Snapshot.id = some sid ∧
    ((∀ c ∈ project.data, (c.isAlphanum || c == ('-') || c == ('_')) = true) →
      project.length ≤ 64 →
      (FileSystemWhiteboard.get_snapshot
        (FileSystemWhiteboard.write_snapshot fs sid created_at phase agent_name project text).1
        sid).map Snapshot.project = some project) := by
  have hsuffix : ((sid ++ (".txt")).data).isSuffixOf
      ((created_at ++ ("_") ++ agent_name ++ ("_") ++ sid ++ (".txt")).data) = true := by
    rw [List.isSuffixOf_iff_suffix]
    refine ⟨(created_at ++ ("_") ++ agent_name ++ ("_")).data, ?_⟩
    simp [List.append_assoc]
  have hnonefs : fs.find?
      (fun f => (sid ++ (".txt")).data.isSuffixOf f.name.data) = none :=
    List.find?_eq_none.mpr
      (fun f hf h => by rw [hfresh f hf] at h; exact Bool.noConfusion h)
  have hfind : (FileSystemWhiteboard.write_snapshot fs sid created_at phase
        agent_name project text).1.find?
      (fun f => (sid ++ (".txt")).data.isSuffixOf f.name.data) =
      some ⟨slug project, phase,
        created_at ++ ("_") ++ agent_name ++ ("_") ++ sid ++ (".txt"), text⟩ := by
    show (fs ++ [(⟨slug project, phase,
        created_at ++ ("_") ++ agent_name ++ ("_") ++ sid ++ (".txt"), text⟩ : FSFile)]).find? _ = _
    rw [List.find?_append, hnonefs, Option.none_or]
    exact List.find?_cons_of_pos _ hsuffix
  have hres : FileSystemWhiteboard.get_snapshot
      (FileSystemWhiteboard.write_snapshot fs sid created_at phase agent_name project text).1
      sid =
      some
        { id := sid
        , phase := phase
        , agent_name := (nameParts (created_at ++ ("_") ++ agent_name ++ ("_") ++ sid
            ++ (".txt"))).getD 1 ("")
        , project := slug project
        , created_at := (nameParts (created_at ++ ("_") ++ agent_name ++ ("_") ++ sid
            ++ (".txt"))).headD ("")
        , text := text } := by
    rw [FileSystemWhiteboard.get_snapshot, hfind]
  rw [hres]
  refine ⟨rfl, rfl, rfl, rfl, ?_⟩
  intro hall hlen
  rw [slug_eq_self project hall hlen]
  rfl

/-- C2 witness: a concrete safe project name `"a-b"` round-trips: the
snapshot read back carries project `"a-b"` itself. -/
theorem c2_roundtrip_witness :
    (FileSystemWhiteboard.get_snapshot
        (FileSystemWhiteboard.write_snapshot [] ("abcd1234") ("2024-01-01T00:00:00")
          ("p") ("al") ("a-b") ("t")).1
        ("abcd1234")).map Snapshot.project = some ("a-b") :=
  (c2_roundtrip [] ("abcd1234") ("2024-01-01T00:00:00") ("p") ("al") ("a-b") ("t")
    (by intro f hf; exact absurd hf (List.not_mem_nil f))).2.2.2.2
    (by decide) (by decide)

/-- The ids actually held by the filesystem store: the last
underscore-separated component of each file name, with `.txt`
removed — what `latest` reconstructs and what `write_snapshot` put
there. -/
def storedIds (fs : List FSFile) : List String :=
  fs.map (fun f => (⟨removeAll ((".txt").data) ((nameParts f.name).getLastD ("")).data⟩ : String))

/-- C3 counterexample: the filesystem `get_snapshot` matches by file
NAME SUFFIX, so the sid `"bcd1234"` — a proper suffix of the stored id
`"abcd1234"` and NOT the id of any snapshot held in the store — is
answered with a snapshot instead of raising NotFound. -/
theorem c3_counterexample :
    (FileSystemWhiteboard.get_snapshot
        [⟨("proj"), ("phase1"), ("2024-01-01T00:00:00_al_abcd1234.txt"), ("hi")⟩]
        ("bcd1234")).isSome = true ∧
    storedIds [⟨("proj"), ("phase1"), ("2024-01-01T00:00:00_al_abcd1234.txt"), ("hi")⟩]
      = [("abcd1234")] ∧
    (("bcd1234") : String) ∉
      storedIds [⟨("proj"), ("phase1"), ("2024-01-01T00:00:00_al_abcd1234.txt"), ("hi")⟩] := by
  refine ⟨rfl, rfl, ?_⟩
  decide

/-- C3 (amended): `get_snapshot` raises the hard NotFound error (and
never returns a snapshot) — for the in-memory store, exactly for every
sid that is not a stored id; for the filesystem store, exactly for every
sid such that NO stored file name has `sid + ".txt"` as a suffix.  A sid
that is a proper suffix of a stored id is therefore served by the
filesystem store (with the requested sid patched into the returned
snapshot) instead of raising NotFound. -/
theorem c3_not_found :
    (∀ (snaps : List Snapshot) (sid : String),
      (InMemoryWhiteboard.get_snapshot snaps sid = none ↔ ∀ s ∈ snaps, s.id ≠ sid) ∧
      (∀ s, InMemoryWhiteboard.get_snapshot snaps sid = some s → s ∈ snaps ∧ s.id = sid)) ∧
    (∀ (fs : List FSFile) (sid : String),
      FileSystemWhiteboard.get_snapshot fs sid = none ↔
        ∀ f ∈ fs, ((sid ++ (".txt")).data.isSuffixOf f.name.data) = false) := by
  constructor
  · intro snaps sid
    constructor
    · rw [InMemoryWhiteboard.get_snapshot, List.find?_eq_none]
      constructor
      · intro h s hs heq
        exact h s hs (by rw [heq]; exact beq_self_eq_true sid)
      · intro h s hs hbeq
        exact h s hs (by simpa using hbeq)
    · intro s hs
      rw [InMemoryWhiteboard.get_snapshot] at hs
      refine ⟨List.mem_of_find?_eq_some hs, ?_⟩
      have := List.find?_some hs
      simpa using this
  · intro fs sid
    rw [FileSystemWhiteboard.get_snapshot]
    cases hf : fs.find? (fun f => (sid ++ (".txt")).data.isSuffixOf f.name.data) with
    | none =>
      constructor
      · intro _ f hmem
        have := List.find?_eq_none.mp hf f hmem
        cases hb : (sid ++ (".txt")).data.isSuffixOf f.name.data with
        | false => rfl
        | true => exact absurd hb this
      · intro _; rfl
    | some f =>
      constructor
      · intro h; exact Option.noConfusion h
      · intro h
        exfalso
        have hmem := List.mem_of_find?_eq_some hf
        have hpf := List.find?_some hf
        rw [h f hmem] at hpf
        exact Bool.noConfusion hpf

/-- C3 witness: on a concrete one-snapshot in-memory store, looking up
an absent id returns the NotFound error. -/
theorem c3_not_found_witness :
    InMemoryWhiteboard.get_snapshot
      [⟨("idA"), ("p"), ("al"), ("proj"), ("2024-01-01T00:00:00"), ("a")⟩] ("idZ") = none :=
  ((c3_not_found.1
      [⟨("idA"), ("p"), ("al"), ("proj"), ("2024-01-01T00:00:00"), ("a")⟩] ("idZ")).1).mpr
    (by decide)

/-- `LJKernelConfig` of `lj_kernel.py` (the `repo_root` field is never
read by `run`, so it is omitted). -/
structure LJKernelConfig where
  project_id : String
  project_topic : String
  notes : String

/-- The reasoning agent as `LJKernel` sees it: a stateful oracle with
the three entry points the kernel calls (`chat`,
`save_upgrade_state(project, goal_description)`,
`save_checkpoint(project, goal_description)`), each returning the
produced text and the agent's next conversation state. -/
structure LJAgent (τ : Type) where
  name : String
  chat : τ → String → String × τ
  save_upgrade_state : τ → String → String → String × τ
  save_checkpoint : τ → String → String → String × τ

/-- A whiteboard as the orchestrators see it: a stateful
`write_snapshot(phase, agent_name, project, text)` returning the written
snapshot and the next store state. -/
structure WhiteboardOracle (ω : Type) where
  write_snapshot : ω → String → String → String → String → Snapshot × ω

/-- Fixed prefix of the NORTH_STAR prompt of
`LJKernel.generate_north_star`. -/
def northPre : String :=
  "\nSwitch to Collapse / NORTH_STAR Mode.\n\nTopic:\n"

/-- Text between the topic and the notes in the NORTH_STAR prompt. -/
def northMid : String :=
  "\n\nNotes:\n"

/-- Fixed suffix of the NORTH_STAR prompt. -/
def northSuf : String :=
  "\n\nYour job:\n- Collapse your exploration into a NORTH_STAR.md suitable for *your own* future work.\n- Do NOT optimize for human readability.\n- Capture: invariants, purpose, capabilities, behavior, boundaries.\n- Make explicit any abstract structures you expect to reuse.\n\nReturn the full NORTH_STAR.md content.\n"

/-- The NORTH_STAR prompt (f-string of `generate_north_star`). -/
def northStarMsg (topic notes : String) : String :=
  northPre ++ topic ++ northMid ++ notes ++ northSuf

/-- Fixed prefix of the architecture prompt of
`LJKernel.generate_architecture`. -/
def archPre : String :=
  "\nSwitch to Architecture Mode.\n\nInput NORTH_STAR.md (your own artifact):\n"

/-- Fixed suffix of the architecture prompt. -/
def archSuf : String :=
  "\n\nProduce ARCHITECTURE.md that:\n- exposes component boundaries\n- describes system topologies / flows\n- surfaces emergent APIs\n- makes the conceptual geometry explicit\n- is NOT simplified for humans\n\nThis is an internal architecture for your own future implementation work.\n"

/-- The architecture prompt: it embeds the NORTH_STAR snapshot's text. -/
def archMsg (northStarText : String) : String :=
  archPre ++ northStarText ++ archSuf

/-- Fixed prefix of the dev-plan prompt of
`LJKernel.generate_dev_plan`. -/
def devPlanPre : String :=
  "\nSwitch to Architecture Mode with Implementation adjacency.\n\nBased on ARCHITECTURE.md:\n"

/-- Fixed suffix of the dev-plan prompt. -/
def devPlanSuf : String :=
  "\n\nProduce DEV_PLAN.md:\n- Ordered implementation steps\n- Coherent modules\n- True build ordering\n- No business-facing simplifications\n- No \"executive summary\" sections\n\nYou are writing this for your own future implementation passes.\n"

/-- The dev-plan prompt: it embeds the architecture snapshot's text. -/
def devPlanMsg (architectureText : String) : String :=
  devPlanPre ++ architectureText ++ devPlanSuf

/-- Fixed prefix of the reflection prompt of
`LJKernel.reflect_on_work`. -/
def reflectPre : String :=
  "\nSwitch to Reflection / Collapse Mode.\n\nReflect on the internal consistency of the following artifacts:\n\nNORTH_STAR.md:\n"

/-- Text between the NORTH_STAR and architecture texts in the
reflection prompt. -/
def reflectMid1 : String :=
  "\n\nARCHITECTURE.md:\n"

/-- Text between the architecture and dev-plan texts in the reflection
prompt. -/
def reflectMid2 : String :=
  "\n\nDEV_PLAN.md:\n"

/-- Fixed suffix of the reflection prompt. -/
def reflectSuf : String :=
  "\n\nExtract and articulate for your future self:\n- Structural tensions\n- Open contradictions\n- Invariant drift\n- Architecture deltas you now believe are necessary\n- Meta-level corrections\n- Frontier opportunities\n\nWrite this as a raw reflection artifact (not an essay, not a report).\n"

/-- The reflection prompt: it embeds the NORTH_STAR, architecture and
dev-plan snapshot texts. -/
def reflectMsg (northStarText architectureText devPlanText : String) : String :=
  reflectPre ++ northStarText ++ reflectMid1 ++ architectureText ++
    reflectMid2 ++ devPlanText ++ reflectSuf

/-- Trace of one `LJKernel.run`: the ordered write log
(phase, returned snapshot), the four prompts sent through `chat`, and
the returned phase-to-snapshot mapping (a Python dict, modelled as an
association list in insertion order). -/
structure LJTrace where
  writes : List (String × Snapshot)
  northPrompt : String
  archPrompt : String
  devPlanPrompt : String
  reflectPrompt : String
  result : List (String × Snapshot)

/-- `LJKernel.run`: upgrade_state, generate_north_star,
generate_architecture (prompt embeds the north-star snapshot's text),
generate_dev_plan (prompt embeds the architecture snapshot's text),
reflect_on_work (prompt embeds all three), checkpoint — each phase
writes one snapshot and the terminal dict maps each phase name to its
snapshot. -/
def ljRun {τ ω : Type} (ag : LJAgent τ) (t0 : τ) (wb : WhiteboardOracle ω) (w0 : ω)
    (cfg : LJKernelConfig) : LJTrace :=
  let r1 := ag.save_upgrade_state t0 cfg.project_id cfg.project_topic
  let u1 := wb.write_snapshot w0 ("upgrade") ag.name cfg.project_id r1.1
  let m1 := northStarMsg cfg.project_topic cfg.notes
  let r2 := ag.chat r1.2 m1
  let u2 := wb.write_snapshot u1.2 ("north_star") ag.name cfg.project_id r2.1
  let m2 := archMsg u2.1.text
  let r3 := ag.chat r2.2 m2
  let u3 := wb.write_snapshot u2.2 ("architecture") ag.name cfg.project_id r3.1
  let m3 := devPlanMsg u3.1.text
  let r4 := ag.chat r3.2 m3
  let u4 := wb.write_snapshot u3.2 ("dev_plan") ag.name cfg.project_id r4.1
  let m4 := reflectMsg u2.1.text u3.1.text u4.1.text
  let r5 := ag.chat r4.2 m4
  let u5 := wb.write_snapshot u4.2 ("reflection") ag.name cfg.project_id r5.1
  let r6 := ag.save_checkpoint r5.2 cfg.project_id cfg.project_topic
  let u6 := wb.write_snapshot u5.2 ("checkpoint") ag.name cfg.project_id r6.1
  { writes := [(("upgrade"), u1.1), (("north_star"), u2.1), (("architecture"), u3.1),
               (("dev_plan"), u4.1), (("reflection"), u5.1), (("checkpoint"), u6.1)]
  , northPrompt := m1
  , archPrompt := m2
  , devPlanPrompt := m3
  , reflectPrompt := m4
  , result := [(("upgrade"), u1.1), (("north_star"), u2.1), (("architecture"), u3.1),
               (("dev_plan"), u4.1), (("reflection"), u5.1), (("checkpoint"), u6.1)] }

/-- One string occurs inside another (Python `in` on str). -/
def strContains (big sub : String) : Prop :=
  sub.data <:+: big.data

lemma strContains_right (a x : String) : strContains (a ++ x) x := by
  refine ⟨a.data, [], ?_⟩
  simp

lemma strContains_extendr (a b x : String) (h : strContains a x) :
    strContains (a ++ b) x := by
  obtain ⟨l, r, hl⟩ := h
  refine ⟨l, r ++ b.data, ?_⟩
  rw [String.data_append, ← hl]
  simp [List.append_assoc]

/-- C6: a full `LJKernel.run` — for EVERY agent oracle (all produce
calls succeed) and every whiteboard — performs exactly six snapshot
writes, tagged upgrade, north_star, architecture, dev_plan, reflection,
checkpoint, in that order; returns the mapping from exactly those six
phase names to the written snapshots (equal, as an ordered association
list, to the write log); and the architecture prompt embeds the
north_star snapshot's text, the dev_plan prompt embeds the architecture
snapshot's text, and the reflection prompt embeds the north_star,
architecture and dev_plan snapshot texts. -/
theorem c6_lj_run {τ ω : Type} (ag : LJAgent τ) (t0 : τ) (wb : WhiteboardOracle ω) (w0 : ω)
    (cfg : LJKernelConfig) :
    ((ljRun ag t0 wb w0 cfg).writes.map Prod.fst =
      [("upgrade"), ("north_star"), ("architecture"), ("dev_plan"),
       ("reflection"), ("checkpoint")]) ∧
    (ljRun ag t0 wb w0 cfg).result = (ljRun ag t0 wb w0 cfg).writes ∧
    strContains (ljRun ag t0 wb w0 cfg).archPrompt
      (((ljRun ag t0 wb w0 cfg).writes.getD 1
        (("", (⟨(""), (""), (""), (""), (""), ("")⟩ : Snapshot)))).2.text) ∧
    strContains (ljRun ag t0 wb w0 cfg).devPlanPrompt
      (((ljRun ag t0 wb w0 cfg).writes.getD 2
        (("", (⟨(""), (""), (""), (""), (""), ("")⟩ : Snapshot)))).2.text) ∧
    strContains (ljRun ag t0 wb w0 cfg).reflectPrompt
      (((ljRun ag t0 wb w0 cfg).writes.getD 1
        (("", (⟨(""), (""), (""), (""), (""), ("")⟩ : Snapshot)))).2.text) ∧
    strContains (ljRun ag t0 wb w0 cfg).reflectPrompt
      (((ljRun ag t0 wb w0 cfg).writes.getD 2
        (("", (⟨(""), (""), (""), (""), (""), ("")⟩ : Snapshot)))).2.text) ∧
    strContains (ljRun ag t0 wb w0 cfg).reflectPrompt
      (((ljRun ag t0 wb w0 cfg).writes.getD 3
        (("", (⟨(""), (""), (""), (""), (""), ("")⟩ : Snapshot)))).2.text) := by
  refine ⟨rfl, rfl, ?_, ?_, ?_, ?_, ?_⟩
  · show strContains (archPre ++ _ ++ archSuf) _
    exact strContains_extendr _ _ _ (strContains_right _ _)
  · show strContains (devPlanPre ++ _ ++ devPlanSuf) _
    exact strContains_extendr _ _ _ (strContains_right _ _)
  · show strContains
      (reflectPre ++ _ ++ reflectMid1 ++ _ ++ reflectMid2 ++ _ ++ reflectSuf) _
    exact strContains_extendr _ _ _ (strContains_extendr _ _ _
      (strContains_extendr _ _ _ (strContains_extendr _ _ _
        (strContains_extendr _ _ _ (strContains_right _ _)))))
  · show strContains
      (reflectPre ++ _ ++ reflectMid1 ++ _ ++ reflectMid2 ++ _ ++ reflectSuf) _
    exact strContains_extendr _ _ _ (strContains_extendr _ _ _
      (strContains_extendr _ _ _ (strContains_right _ _)))
  · show strContains
      (reflectPre ++ _ ++ reflectMid1 ++ _ ++ reflectMid2 ++ _ ++ reflectSuf) _
    exact strContains_extendr _ _ _ (strContains_right _ _)

/-- A workspace path, as its list of components (Python `Path` parts). -/
abbrev PathC : Type := List (List Char)

/-- Split a relative path string on `/` into components
(`repo_root / path_str`). -/
def splitPath (p : List Char) : PathC :=
  pySplit (("/").data) p

/-- Every non-empty prefix of a path's components — the directories
`mkdir(parents=True)` creates for that path. -/
def pathAncestors (p : PathC) : List PathC :=
  (List.range (List.length p)).map (fun i => List.take (i + 1) p)

/-- Add directories to the directory set (no duplicates, order kept). -/
def addDirs (ds : List PathC) (new : List PathC) : List PathC :=
  new.foldl (fun acc d => if d ∈ acc then acc else acc ++ [d]) ds

/-- Overwrite-or-create of `Path.write_text`. -/
def upsertFile : List (PathC × List Char) → PathC → List Char → List (PathC × List Char)
  | [], p, c => [(p, c)]
  | (q, d) :: t, p, c => if q = p then (p, c) :: t else (q, d) :: upsertFile t p c

/-- The target workspace of `MasterAgent`: which directories exist and
which files (path to content).  The whiteboard's own files are a
separate store and are not part of this workspace. -/
structure Workspace where
  dirs : List PathC
  files : List (PathC × List Char)

/-- One iteration of the `for block in blocks[1:]` loop of
`MasterAgent._apply_changes`: the planned full path is always appended
to `changed_paths`; only when `dry_run` is false are the parent
directories created and the file written. -/
def applyStep (root : PathC) (dry : Bool) (acc : List PathC × Workspace)
    (pb : List Char × List Char) : List PathC × Workspace :=
  let full := root ++ splitPath pb.1
  (acc.1 ++ [full],
   if dry then acc.2
   else { dirs := addDirs acc.2.dirs (pathAncestors (List.dropLast full))
        , files := upsertFile acc.2.files full pb.2 })

/-- `MasterAgent._apply_changes`: parse the `=== file:` blocks of the
developer output and fold `applyStep` over them, returning the planned
paths and the resulting workspace. -/
def applyChanges (root : PathC) (ws : Workspace) (out : List Char) (dry : Bool) :
    List PathC × Workspace :=
  (parseBlocks out).foldl (applyStep root dry) ([], ws)

/-- Insertion of a string into a sorted list (for the sorted
`rglob` order of `_snapshot_repo`). -/
def insertSorted (x : String) : List String → List String
  | [] => [x]
  | y :: ys => if strLe x y then x :: y :: ys else y :: insertSorted x ys

/-- Insertion sort by the lexicographic string order. -/
def sortStrs : List String → List String
  | [] => []
  | x :: xs => insertSorted x (sortStrs xs)

/-- Render a workspace path relative to the workspace root. -/
def renderPath (root : PathC) (p : PathC) : String :=
  String.intercalate ("/") ((p.drop (List.length root)).map (fun l => (⟨l⟩ : String)))

/-- `MasterAgent._snapshot_repo`: the sorted relative paths of every
file under the workspace root, one per line. -/
def snapshotRepo (root : PathC) (ws : Workspace) : String :=
  String.intercalate ("\n") (sortStrs (ws.files.map (fun f => renderPath root f.1)))

/-- The agent calls `MasterAgent.run` makes, with their text inputs
(each agent subclass wraps the payload in its prompt template before
`chat`; the template text does not affect the orchestration and is
folded into the oracle). -/
inductive MACall where
  | genNorthStar (problem : String)
  | stateUpload (agentName project goal : String)
  | genArchitecture (northStarMd : String)
  | genDevPlan (architectureMd : String)
  | implementStep (step repoSnapshot : String)
  | critique (step code northStarMd architectureMd : String)

/-- The four agents of `MasterAgent` (architect, planner, developer,
critic) as one stateful oracle answering each call with some text. -/
structure MAgents (τ : Type) where
  architectName : String
  plannerName : String
  developerName : String
  criticName : String
  step : τ → MACall → String × τ

/-- Accumulated state of the implementation loop of
`MasterAgent.run`. -/
structure StepAcc (τ ω : Type) where
  changes : List (String × List PathC)
  critiques : List Snapshot
  writes : List (String × Snapshot)
  devOutputs : List (List Char)
  agentSt : τ
  wbSt : ω
  ws : Workspace

/-- The implementation loop of `MasterAgent.run`: for each step (with
its 1-based index), snapshot the repo listing, ask the developer,
apply (or only plan, under `dry_run`) the parsed file changes, ask the
critic, persist the critique. -/
def runSteps {τ ω : Type} (ag : MAgents τ) (wb : WhiteboardOracle ω) (projectId : String)
    (root : PathC) (northMd archMd : String) (dry : Bool) :
    List (List Char) → Nat → τ → ω → Workspace → StepAcc τ ω
  | [], _, t, w, ws => ⟨[], [], [], [], t, w, ws⟩
  | s :: rest, idx, t, w, ws =>
    let label := ("step_") ++ toString idx
    let repoSnap := snapshotRepo root ws
    let rc := ag.step t (MACall.implementStep (⟨s⟩ : String) repoSnap)
    let ap := applyChanges root ws rc.1.data dry
    let rcrit := ag.step rc.2 (MACall.critique (⟨s⟩ : String) rc.1 northMd archMd)
    let wcrit := wb.write_snapshot w ("critique") ag.criticName projectId rcrit.1
    let acc := runSteps ag wb projectId root northMd archMd dry rest (idx + 1) rcrit.2 wcrit.2 ap.2
    ⟨(label, ap.1) :: acc.changes, wcrit.1 :: acc.critiques,
     (("critique"), wcrit.1) :: acc.writes, rc.1.data :: acc.devOutputs,
     acc.agentSt, acc.wbSt, acc.ws⟩

/-- The dict `MasterAgent.run` returns. -/
structure MasterResult where
  north_star_state : Snapshot
  architecture_state : Snapshot
  dev_plan_state : Snapshot
  file_changes : List (String × List PathC)
  critiques : List Snapshot

/-- Trace of one `MasterAgent.run`: its returned dict, the workspace
right after the initial `repo_root_path.mkdir(parents=True)` and at the
end, the whiteboard write log, the raw developer outputs and the parsed
step list. -/
structure MasterTrace where
  result : MasterResult
  wsAtLoopStart : Workspace
  finalWs : Workspace
  writes : List (String × Snapshot)
  devOutputs : List (List Char)
  stepTexts : List (List Char)

/-- `MasterAgent.run`: create the workspace root (always, before
anything else), run the north-star / architecture / dev-plan phases
with their state uploads and `_md` snapshots, split the dev plan into
its non-blank stripped lines, and run the implementation loop. -/
def masterRun {τ ω : Type} (ag : MAgents τ) (t0 : τ) (wb : WhiteboardOracle ω) (w0 : ω)
    (projectId problem : String) (root : PathC) (ws0 : Workspace) (dry : Bool) : MasterTrace :=
  let ws1 : Workspace := { dirs := addDirs ws0.dirs (pathAncestors root), files := ws0.files }
  let r1 := ag.step t0 (MACall.genNorthStar problem)
  let r2 := ag.step r1.2 (MACall.stateUpload ag.architectName projectId problem)
  let u1 := wb.write_snapshot w0 ("north_star_state") ag.architectName projectId r2.1
  let u2 := wb.write_snapshot u1.2 ("north_star_md") ag.architectName projectId r1.1
  let r3 := ag.step r2.2 (MACall.genArchitecture r1.1)
  let r4 := ag.step r3.2 (MACall.stateUpload ag.architectName projectId problem)
  let u3 := wb.write_snapshot u2.2 ("architecture_state") ag.architectName projectId r4.1
  let u4 := wb.write_snapshot u3.2 ("architecture_md") ag.architectName projectId r3.1
  let r5 := ag.step r4.2 (MACall.genDevPlan r3.1)
  let r6 := ag.step r5.2 (MACall.stateUpload ag.plannerName projectId problem)
  let u5 := wb.write_snapshot u4.2 ("dev_plan_state") ag.plannerName projectId r6.1
  let u6 := wb.write_snapshot u5.2 ("dev_plan_md") ag.plannerName projectId r5.1
  let stepTexts := ((pySplit (("\n").data) r5.1.data).map pyStrip).filter (fun l => l ≠ [])
  let acc := runSteps ag wb projectId root r1.1 r3.1 dry stepTexts 1 r6.2 u6.2 ws1
  { result := { north_star_state := u1.1, architecture_state := u3.1,
                dev_plan_state := u5.1, file_changes := acc.changes,
                critiques := acc.critiques }
  , wsAtLoopStart := ws1
  , finalWs := acc.ws
  , writes := [(("north_star_state"), u1.1), (("north_star_md"), u2.1),
               (("architecture_state"), u3.1), (("architecture_md"), u4.1),
               (("dev_plan_state"), u5.1), (("dev_plan_md"), u6.1)] ++ acc.writes
  , devOutputs := acc.devOutputs
  , stepTexts := stepTexts }

lemma foldl_applyStep_fst (root : PathC) (dry : Bool) :
    ∀ (blocks : List (List Char × List Char)) (ps : List PathC) (ws : Workspace),
      ((blocks.foldl (applyStep root dry) (ps, ws)).1 =
        ps ++ blocks.map (fun pb => root ++ splitPath pb.1)) := by
  intro blocks
  induction blocks with
  | nil => intro ps ws; simp
  | cons b bs ih =>
    intro ps ws
    rw [List.foldl_cons]
    show ((bs.foldl (applyStep root dry) (applyStep root dry (ps, ws) b)).1 = _)
    have happ : applyStep root dry (ps, ws) b =
        (ps ++ [root ++ splitPath b.1],
         if dry then ws
         else { dirs := addDirs ws.dirs (pathAncestors (List.dropLast (root ++ splitPath b.1)))
              , files := upsertFile ws.files (root ++ splitPath b.1) b.2 }) := rfl
    rw [happ]
    cases dry with
    | true =>
      rw [if_pos rfl] at *
      rw [ih]
      simp
    | false =>
      rw [if_neg (by exact Bool.noConfusion)] at *
      rw [ih]
      simp

lemma foldl_applyStep_dry_ws (root : PathC) :
    ∀ (blocks : List (List Char × List Char)) (ps : List PathC) (ws : Workspace),
      ((blocks.foldl (applyStep root true) (ps, ws)).2 = ws) := by
  intro blocks
  induction blocks with
  | nil => intro ps ws; rfl
  | cons b bs ih =>
    intro ps ws
    rw [List.foldl_cons]
    show ((bs.foldl (applyStep root true) (applyStep root true (ps, ws) b)).2 = ws)
    have happ : applyStep root true (ps, ws) b = (ps ++ [root ++ splitPath b.1], ws) := rfl
    rw [happ, ih]

lemma applyChanges_paths (root : PathC) (ws : Workspace) (out : List Char) (dry : Bool) :
    (applyChanges root ws out dry).1 =
      (parseBlocks out).map (fun pb => root ++ splitPath pb.1) := by
  unfold applyChanges
  rw [foldl_applyStep_fst]
  simp

lemma applyChanges_dry_ws (root : PathC) (ws : Workspace) (out : List Char) :
    (applyChanges root ws out true).2 = ws :=
  foldl_applyStep_dry_ws root (parseBlocks out) [] ws

lemma runSteps_dry_ws {τ ω : Type} (ag : MAgents τ) (wb : WhiteboardOracle ω)
    (projectId : String) (root : PathC) (northMd archMd : String) :
    ∀ (steps : List (List Char)) (idx : Nat) (t : τ) (w : ω) (ws : Workspace),
      (runSteps ag wb projectId root northMd archMd true steps idx t w ws).ws = ws := by
  intro steps
  induction steps with
  | nil => intro idx t w ws; rfl
  | cons s rest ih =>
    intro idx t w ws
    show (runSteps ag wb projectId root northMd archMd true rest (idx + 1) _ _
      (applyChanges root ws _ true).2).ws = ws
    rw [applyChanges_dry_ws, ih]

lemma runSteps_dry_changes {τ ω : Type} (ag : MAgents τ) (wb : WhiteboardOracle ω)
    (projectId : String) (root : PathC) (northMd archMd : String) (W : Workspace) :
    ∀ (steps : List (List Char)) (idx : Nat) (t : τ) (w : ω) (ws : Workspace),
      (runSteps ag wb projectId root northMd archMd true steps idx t w ws).changes.map Prod.snd =
        (runSteps ag wb projectId root northMd archMd true steps idx t w ws).devOutputs.map
          (fun code => (applyChanges root W code false).1) := by
  intro steps
  induction steps with
  | nil => intro idx t w ws; rfl
  | cons s rest ih =>
    intro idx t w ws
    show ((applyChanges root ws _ true).1 :: _) = _
    rw [applyChanges_paths, ih, ← applyChanges_paths root W _ false]
    rfl

lemma mem_addDirs_of_mem (x : PathC) :
    ∀ (new ds : List PathC), x ∈ ds → x ∈ addDirs ds new := by
  intro new
  induction new with
  | nil => intro ds h; exact h
  | cons d rest ih =>
    intro ds h
    show x ∈ addDirs (if d ∈ ds then ds else ds ++ [d]) rest
    by_cases hd : d ∈ ds
    · rw [if_pos hd]; exact ih ds h
    · rw [if_neg hd]; exact ih (ds ++ [d]) (List.mem_append_left _ h)

lemma mem_addDirs_of_mem_new (x : PathC) :
    ∀ (new ds : List PathC), x ∈ new → x ∈ addDirs ds new := by
  intro new
  induction new with
  | nil => intro ds h; exact absurd h (List.not_mem_nil x)
  | cons d rest ih =>
    intro ds h
    show x ∈ addDirs (if d ∈ ds then ds else ds ++ [d]) rest
    cases List.mem_cons.mp h with
    | inl hx =>
      subst hx
      by_cases hd : x ∈ ds
      · rw [if_pos hd]; exact mem_addDirs_of_mem x rest ds hd
      · rw [if_neg hd]
        exact mem_addDirs_of_mem x rest (ds ++ [x])
          (List.mem_append_right ds (List.mem_singleton_self x))
    | inr hx =>
      by_cases hd : d ∈ ds
      · rw [if_pos hd]; exact ih ds hx
      · rw [if_neg hd]; exact ih (ds ++ [d]) hx

lemma root_mem_pathAncestors (root : PathC) (h : root ≠ []) :
    root ∈ pathAncestors root := by
  unfold pathAncestors
  have hlen : 0 < List.length root := List.length_pos.mpr h
  refine List.mem_map.mpr ⟨List.length root - 1, ?_, ?_⟩
  · exact List.mem_range.mpr (by omega)
  · rw [Nat.sub_add_cancel hlen]
    exact List.take_length root

/-- C7: dry-run of the multi-agent orchestrator.  (1) applying parsed
file-change blocks with `dry_run=True` leaves the workspace untouched;
(2) the planned path list is identical to the one a non-dry-run
application of the same developer output would write (it does not even
depend on the workspace contents); (3) there is exactly one planned path
per well-formed block; and (4) a full `MasterAgent.run` in dry-run mode
leaves the workspace file set untouched while each step's entry in the
returned `file_changes` still carries the full ordered planned-path list
of that step's developer output, as a non-dry-run application would have
written it. -/
theorem c7_dry_run :
    (∀ (root : PathC) (ws : Workspace) (out : List Char),
      (applyChanges root ws out true).2 = ws) ∧
    (∀ (root : PathC) (ws ws' : Workspace) (out : List Char),
      (applyChanges root ws out true).1 = (applyChanges root ws' out false).1) ∧
    (∀ (root : PathC) (ws : Workspace) (out : List Char),
      (applyChanges root ws out true).1.length = (parseBlocks out).length) ∧
    (∀ (τ ω : Type) (ag : MAgents τ) (t0 : τ) (wb : WhiteboardOracle ω) (w0 : ω)
      (projectId problem : String) (root : PathC) (ws0 : Workspace),
      (masterRun ag t0 wb w0 projectId problem root ws0 true).finalWs.files = ws0.files ∧
      (masterRun ag t0 wb w0 projectId problem root ws0 true).result.file_changes.map Prod.snd =
        (masterRun ag t0 wb w0 projectId problem root ws0 true).devOutputs.map
          (fun code => (applyChanges root ws0 code false).1)) := by
  refine ⟨?_, ?_, ?_, ?_⟩
  · intro root ws out
    exact applyChanges_dry_ws root ws out
  · intro root ws ws' out
    rw [applyChanges_paths, applyChanges_paths]
  · intro root ws out
    rw [applyChanges_paths]
    exact List.length_map _ _
  · intro τ ω ag t0 wb w0 projectId problem root ws0
    constructor
    · show (runSteps ag wb projectId root _ _ true _ 1 _ _
        { dirs := addDirs ws0.dirs (pathAncestors root), files := ws0.files }).ws.files =
        ws0.files
      rw [runSteps_dry_ws]
    · exact runSteps_dry_changes ag wb projectId root _ _ ws0 _ 1 _ _ _

/-- C10: `MasterAgent.run` creates the workspace root directory (with
all its ancestors) at the very start of every run, before any step
executes and regardless of the dry-run flag — the workspace state
carried into the implementation loop is exactly the initial one with the
root path's ancestor chain added to the directory set and the files
untouched; under dry-run the loop then changes nothing more, so the
dry-run flag suppresses only the per-file writes and per-file parent
directory creation of change application.  For a non-empty root path the
root directory itself is in the created set. -/
theorem c10_root_mkdir (τ ω : Type) (ag : MAgents τ) (t0 : τ) (wb : WhiteboardOracle ω)
    (w0 : ω) (projectId problem : String) (root : PathC) (ws0 : Workspace) (dry : Bool) :
    ((masterRun ag t0 wb w0 projectId problem root ws0 dry).wsAtLoopStart =
      { dirs := addDirs ws0.dirs (pathAncestors root), files := ws0.files }) ∧
    ((masterRun ag t0 wb w0 projectId problem root ws0 true).finalWs =
      (masterRun ag t0 wb w0 projectId problem root ws0 true).wsAtLoopStart) ∧
    (root ≠ [] →
      root ∈ (masterRun ag t0 wb w0 projectId problem root ws0 dry).wsAtLoopStart.dirs) := by
  refine ⟨rfl, ?_, ?_⟩
  · show (runSteps ag wb projectId root _ _ true _ 1 _ _
      { dirs := addDirs ws0.dirs (pathAncestors root), files := ws0.files }).ws = _
    rw [runSteps_dry_ws]
    rfl
  · intro hroot
    show root ∈ addDirs ws0.dirs (pathAncestors root)
    exact mem_addDirs_of_mem_new _ _ _ (root_mem_pathAncestors root hroot)

/-- A concrete stub oracle for the four agents (every call answers the
empty string). -/
def stubAgents : MAgents Unit :=
  ⟨("architect"), ("planner"), ("developer"), ("critic"), fun t _ => ((""), t)⟩

/-- A concrete stub whiteboard (stateless writes). -/
def stubWhiteboard : WhiteboardOracle Unit :=
  ⟨fun w phase agent_name project text =>
    (⟨("id0"), phase, agent_name, project, ("2024-01-01T00:00:00"), text⟩, w)⟩

/-- C10 witness: a concrete dry run over the stub agents on the
workspace root `ws` registers the root directory before the loop. -/
theorem c10_root_mkdir_witness :
    [("ws").data] ∈ (masterRun stubAgents () stubWhiteboard () ("p") ("q")
      [("ws").data] ⟨[], []⟩ true).wsAtLoopStart.dirs :=
  (c10_root_mkdir Unit Unit stubAgents () stubWhiteboard () ("p") ("q")
    [("ws").data] ⟨[], []⟩ true).2.2 (by decide)

end AiNativeModel
